import Mathlib

/-!
Shallow embedding of the oidn autoexposure operation (src/core/autoexposure.h)
and the Engine factory methods (src/unnamed/part_000), with theorems checking
the natural-language specification against the code.

Machine floats are modelled as ideal real numbers; a NaN input channel is
modelled as `none : Option ℝ`.  The in-group tree reduction
(`for (i = groupSize/2; i > 0; i >>= 1) { syncGroup(); if (localId < i) ... }`)
is embedded as an explicit transformation of the shared array, and the strided
read loop of the reduce kernel (`for (i = getGlobalId(); i < size;
i += getGlobalRange())`) as a fuel-indexed recursion.
-/

namespace Oidn

/-- One halving step of the in-group tree reduction: every unit with
`localId < i` performs `localSums[localId] += localSums[localId + i]`
(autoexposure.h, lines 90-95, 136-144, 180-188). -/
def step {M : Type} [Add M] (a : ℕ → M) (i : ℕ) : ℕ → M :=
  fun j => if j < i then a j + a (j + i) else a j

/-- The loop `for (int i = groupSize/2; i > 0; i >>= 1)` for
`groupSize = 2^k`: the values of `i` are `2^(k-1), ..., 1`, applied in that
order to the shared array. -/
def treeLoop {M : Type} [Add M] : ℕ → (ℕ → M) → (ℕ → M)
  | 0, a => a
  | k + 1, a => treeLoop k (step a (2 ^ k))

/-- The strided read loop `for (int i = gid; i < size; i += R) acc += f i`
(autoexposure.h, lines 122-130), with fuel bounding the iteration count. -/
def strideLoop {M : Type} [AddCommMonoid M] (f : ℕ → M) (size R : ℕ) :
    ℕ → ℕ → M
  | 0, _ => 0
  | fuel + 1, i => if i < size then f i + strideLoop f size R fuel (i + R) else 0

/-- Value accumulated by the execution unit with global id `gid`:
`size` iterations of fuel are always enough when `R ≥ 1`. -/
def strideSum {M : Type} [AddCommMonoid M] (f : ℕ → M) (size R gid : ℕ) : M :=
  strideLoop f size R size gid

/-! ## Autoexposure data model (src/core/autoexposure.h) -/

/-- `maxBinSize` (autoexposure.h line 14). -/
def maxBinSize : ℕ := 16

/-- `key` (autoexposure.h line 15). -/
noncomputable def key : ℝ := 0.18

/-- `eps` (autoexposure.h lines 16 and 115). -/
noncomputable def eps : ℝ := 1e-8

/-- `groupSize` of the reduce kernels (autoexposure.h line 266). -/
def groupSize : ℕ := 1024

/-- FLT_MAX, the largest finite single-precision value, `(2^24 - 1) * 2^104`. -/
noncomputable def fltMax : ℝ := (2 ^ 24 - 1) * 2 ^ 104

/-- Modelled from the spec: `ceil_div` (a common.h utility not in src/) is
ceiling division, so that `numBinsH = ceil_div(H, 16)` tiles the image with
tiles of edge at most 16. -/
def ceil_div (a b : ℕ) : ℕ := (a + b - 1) / b

/-- A float channel: `none` models NaN, `some x` a finite value modelled as
an ideal real. -/
def Chan : Type := Option ℝ

/-- A 3-channel pixel as returned by `src.get3(h, w)`. -/
def Pixel : Type := Chan × Chan × Chan

/-- A source image: pixel color at coordinates `(h, w)`. -/
def ImageFun : Type := ℕ → ℕ → Pixel

/-- Modelled from the spec: `nan_to_zero` from the color collaborator
(color.h is not in src/) — a NaN channel becomes 0. -/
def nan_to_zero (c : Chan) : ℝ := Option.getD c 0

/-- `clamp(x, lo, hi)` = `min(max(x, lo), hi)` (math utility not in src/,
standard clamp used at autoexposure.h line 79). -/
noncomputable def clamp (x lo hi : ℝ) : ℝ := min (max x lo) hi

/-- Modelled from the spec: the `luminance` primitive (color.h is not in
src/); Rec. 709 luma coefficients, which sum to exactly 1. -/
noncomputable def luminance (r g b : ℝ) : ℝ :=
  0.212671 * r + 0.715160 * g + 0.072169 * b

/-- Lines 78-80: sanitize the pixel (`clamp(nan_to_zero(c), 0, FLT_MAX)`)
then take its luminance. -/
noncomputable def sanitizedLuminance (p : Pixel) : ℝ :=
  luminance (clamp (nan_to_zero p.1) 0 fltMax)
    (clamp (nan_to_zero p.2.1) 0 fltMax)
    (clamp (nan_to_zero p.2.2) 0 fltMax)

/-- A uniform image of color `(c, c, c)`. -/
noncomputable def uniformImage (c : ℝ) : ImageFun := fun _ _ => (some c, some c, some c)

/-- An image in which every pixel channel is NaN. -/
def allNaNImage : ImageFun := fun _ _ => (none, none, none)

/-! ### Stage 1 — GPUAutoexposureDownsampleKernel (lines 56-103)

The kernel runs on a `numBinsH × numBinsW` grid of `16 × 16` groups; group
`(bh, bw)` covers the tile `[beginH, endH) × [beginW, endW)` with the
integer-division boundaries of lines 67-70. -/

/-- Tile boundary `b * H / n` (integer division), as in lines 67-70:
`beginH = tileLo H nbh bh`, `endH = tileLo H nbh (bh+1)`. -/
def tileLo (H n b : ℕ) : ℕ := b * H / n

/-- The luminance value `L` computed by the unit with local id `(lh, lw)`
of group `(bh, bw)` (lines 72-85): the sanitized luminance of its pixel when
in range, else the padding value 0. -/
noncomputable def unitL (img : ImageFun) (H W nbh nbw bh bw lh lw : ℕ) : ℝ :=
  if tileLo H nbh bh + lh < tileLo H nbh (bh + 1) ∧
      tileLo W nbw bw + lw < tileLo W nbw (bw + 1) then
    sanitizedLuminance (img (tileLo H nbh bh + lh) (tileLo W nbw bw + lw))
  else 0

/-- The shared array `localSums` right after line 88: the unit with
`localId = getLocalLinearId() = lh*16 + lw` stored its `L`. -/
noncomputable def downsampleLocal (img : ImageFun) (H W nbh nbw bh bw : ℕ)
    (j : ℕ) : ℝ :=
  unitL img H W nbh nbw bh bw (j / 16) (j % 16)

/-- The bin average written at lines 97-101 by group `(bh, bw)`:
the tree-reduced total divided by `(endH-beginH)*(endW-beginW)`. -/
noncomputable def binAvg (img : ImageFun) (H W nbh nbw bh bw : ℕ) : ℝ :=
  treeLoop 8 (downsampleLocal img H W nbh nbw bh bw) 0 /
    ((tileLo H nbh (bh + 1) - tileLo H nbh bh) *
      (tileLo W nbw (bw + 1) - tileLo W nbw bw) : ℕ)

/-- The `bins` scratch array after stage 1: entry `b = getGroupLinearId()
= bh * numBinsW + bw` holds the average of group `(b / numBinsW,
b % numBinsW)`. -/
noncomputable def binsArray (img : ImageFun) (H W nbh nbw : ℕ) (b : ℕ) : ℝ :=
  binAvg img H W nbh nbw (b / nbw) (b % nbw)

/-! ### Stage 2 — GPUAutoexposureReduceKernel (lines 105-152)

`numGroups` groups of `groupSize = 1024` units; the unit with
`getGlobalId() = g*1024 + l` strides over the bins array with stride
`getGlobalRange() = numGroups*1024`, accumulating `sum += log2(L)` and
`++count` for bins with `L > eps` (lines 120-130); each group then
tree-reduces both accumulators and emits `sums[g]`, `counts[g]`. -/

/-- The per-index contribution of the strided loop body (lines 124-129),
as a (sum, count) pair; `log2` is `Real.logb 2`. -/
noncomputable def reducePair (binsA : ℕ → ℝ) (i : ℕ) : ℝ × ℤ :=
  if eps < binsA i then (Real.logb 2 (binsA i), 1) else (0, 0)

/-- The (sum, count) pair emitted by group `g` of the reduce kernel
(lines 146-150): tree reduction over the per-unit strided accumulations. -/
noncomputable def groupPartial (binsA : ℕ → ℝ) (size nG g : ℕ) : ℝ × ℤ :=
  treeLoop 10 (fun l => strideSum (reducePair binsA) size (nG * 1024) (g * 1024 + l)) 0

/-! ### Stage 3 — GPUAutoexposureReduceFinalKernel (lines 154-196)

One group of 1024 units; unit `l` loads `sums[l]`, `counts[l]` when
`l < size = numGroups`, else stores the padding pair (0,0) (lines 169-178);
the group tree-reduces and unit 0 writes
`*dst = key / exp2(localSums[0] / float(localCounts[0]))` (lines 190-194). -/

/-- Shared array contents after the bounds-checked load (lines 169-178). -/
noncomputable def finalLocal (parts : ℕ → ℝ × ℤ) (size l : ℕ) : ℝ × ℤ :=
  if l < size then parts l else (0, 0)

/-- The final write at line 193.  When `totalCount = 0` the float code
computes `0.0f / 0`, which is NaN and propagates through `exp2` and the
division; this NaN outcome is modelled as `none`. -/
noncomputable def finalResult (totalSum : ℝ) (totalCount : ℤ) : Option ℝ :=
  if totalCount = 0 then none
  else some (key / (2 : ℝ) ^ (totalSum / (totalCount : ℝ)))

/-! ### The whole three-stage pipeline as issued by
`GPUAutoexposure::runKernel` (lines 238-264). -/

/-- `numBinsH` (autoexposure.h line 21). -/
def numBinsHOf (H : ℕ) : ℕ := ceil_div H maxBinSize

/-- `numBinsW` (autoexposure.h line 22). -/
def numBinsWOf (W : ℕ) : ℕ := ceil_div W maxBinSize

/-- `numBins = numBinsH * numBinsW` (autoexposure.h line 23). -/
def numBinsOf (H W : ℕ) : ℕ := numBinsHOf H * numBinsWOf W

/-- `numGroups = min(ceil_div(numBins, groupSize), groupSize)`
(autoexposure.h line 206). -/
def numGroupsOf (H W : ℕ) : ℕ := min (ceil_div (numBinsOf H W) groupSize) groupSize

/-- The scalar produced by the three back-to-back kernel launches of
`runKernel` and copied to `result` (lines 244-263), read via `getResult()`. -/
noncomputable def autoexposurePipeline (img : ImageFun) (H W : ℕ) : Option ℝ :=
  let nbh := numBinsHOf H
  let nbw := numBinsWOf W
  let nB := numBinsOf H W
  let nG := numGroupsOf H W
  let binsA := binsArray img H W nbh nbw
  let totals := treeLoop 10 (finalLocal (groupPartial binsA nB nG) nG) 0
  finalResult totals.1 totals.2

/-- The pixel tile of bin `b`: the rectangle
`[beginH, endH) × [beginW, endW)` of the downsample group
`(b / numBinsW, b % numBinsW)`. -/
def binTile (H W b : ℕ) : Finset (ℕ × ℕ) :=
  Finset.Ico (tileLo H (numBinsHOf H) (b / numBinsWOf W))
      (tileLo H (numBinsHOf H) (b / numBinsWOf W + 1)) ×ˢ
    Finset.Ico (tileLo W (numBinsWOf W) (b % numBinsWOf W))
      (tileLo W (numBinsWOf W) (b % numBinsWOf W + 1))

/-! ## Operation state model: Autoexposure / GPUAutoexposure
(autoexposure.h lines 11-42 and 198-272) -/

/-- `ImageDesc`: the construction-time source descriptor (height, width). -/
structure ImageDesc where
  H : ℕ
  W : ℕ

/-- Modelled from the spec: the `DataType` element-type enumeration (its
header is not in src/) — a closed, build-time set of element types, of which
only the two floating-point precisions are supported by the kernels. -/
inductive DataType where
  | Float32
  | Float16
  | UInt8
  | Undefined
deriving DecidableEq

/-- An `Image`: dimensions, element type, and pixel data. -/
structure ImageObj where
  H : ℕ
  W : ℕ
  dtype : DataType
  data : ImageFun

/-- A bound scratch `Tensor`, abstracted to its byte size (the only property
`setScratch` checks). -/
structure TensorObj where
  byteSize : ℕ

/-- The errors of the spec's error model; the source's `assert` statements
are modelled as these errors. -/
inductive OidnError where
  | precondition
  | unsupportedType
deriving DecidableEq

/-- Which kernel instantiation `run()` dispatches to
(`runKernel<float>` / `runKernel<half>`, lines 225-230). -/
inductive KernelPrec where
  | float
  | half
deriving DecidableEq

/-- The state of a `GPUAutoexposure` operation: the construction-time fields
(lines 18-24 and 202-208) plus the bound source and scratch. -/
structure GPUAutoexposure where
  srcDesc : ImageDesc
  numBinsH : ℕ
  numBinsW : ℕ
  numBins : ℕ
  numGroups : ℕ
  scratchSize : ℕ
  src : Option ImageObj
  scratch : Option TensorObj
  result : Option (Option ℝ)

/-- The `GPUAutoexposure` constructor (lines 18-24, 202-208):
`numBinsH = ceil_div(H, 16)`, `numBinsW = ceil_div(W, 16)`,
`numBins = numBinsH*numBinsW`, `numGroups = min(ceil_div(numBins, 1024),
1024)`, `scratchSize = numBins*sizeof(float) +
numGroups*(sizeof(float)+sizeof(int))`. -/
def mkGPUAutoexposure (desc : ImageDesc) : GPUAutoexposure :=
  { srcDesc := desc
    numBinsH := ceil_div desc.H maxBinSize
    numBinsW := ceil_div desc.W maxBinSize
    numBins := ceil_div desc.H maxBinSize * ceil_div desc.W maxBinSize
    numGroups := min (ceil_div (ceil_div desc.H maxBinSize * ceil_div desc.W maxBinSize) groupSize) groupSize
    scratchSize := ceil_div desc.H maxBinSize * ceil_div desc.W maxBinSize * 4 +
      min (ceil_div (ceil_div desc.H maxBinSize * ceil_div desc.W maxBinSize) groupSize) groupSize * (4 + 4)
    src := none
    scratch := none
    result := none }

/-- `getScratchByteSize()` (lines 210-213). -/
def getScratchByteSize (op : GPUAutoexposure) : ℕ := op.scratchSize

/-- `Autoexposure::setSrc` (lines 26-30): asserts that the image dimensions
match the construction descriptor, then binds the source. -/
def setSrc (op : GPUAutoexposure) (img : ImageObj) :
    Except OidnError GPUAutoexposure :=
  if img.W = op.srcDesc.W ∧ img.H = op.srcDesc.H then
    .ok { op with src := some img }
  else .error .precondition

/-- `GPUAutoexposure::setScratch` (lines 215-219): asserts
`scratch->getByteSize() >= scratchSize`, then binds the scratch tensor. -/
def setScratch (op : GPUAutoexposure) (t : TensorObj) :
    Except OidnError GPUAutoexposure :=
  if op.scratchSize ≤ t.byteSize then
    .ok { op with scratch := some t }
  else .error .precondition

/-- The `switch (src->getDataType())` of `run()` (lines 221-234): Float32
dispatches the `float` instantiation, Float16 the `half` instantiation, and
every other element type hits `assert(0)` (UnsupportedTypeError). -/
def dispatchKernel : DataType → Except OidnError KernelPrec
  | .Float32 => .ok .float
  | .Float16 => .ok .half
  | _ => .error .unsupportedType

/-- `run()` (lines 221-234): dispatches on the source element type and runs
the three-stage pipeline, storing the result scalar.  In this ideal-real
model the two kernel precisions decode the same pixel values, so both
instantiations compute `autoexposurePipeline`. -/
noncomputable def runOp (op : GPUAutoexposure) :
    Except OidnError GPUAutoexposure :=
  match op.src with
  | none => .error .precondition
  | some img =>
      match dispatchKernel img.dtype with
      | .error e => .error e
      | .ok _ =>
          .ok { op with result := some (autoexposurePipeline img.data op.srcDesc.H op.srcDesc.W) }

/-! ## Engine factory methods (src/unnamed/part_000) -/

/-- An `Engine`, identified by its device identity. -/
structure EngineObj where
  id : ℕ

/-- A `Buffer`: owning engine and byte size. -/
structure BufferObj where
  engineId : ℕ
  byteSize : ℕ

/-- A `TensorDesc` collaborator, abstracted to its byte size. -/
structure TensorDescObj where
  byteSize : ℕ

/-- A `GenericTensor` view over a caller-supplied buffer at a byte offset. -/
structure GenericTensor where
  buffer : BufferObj
  desc : TensorDescObj
  byteOffset : ℕ

/-- `Engine::newTensor(buffer, desc, byteOffset)` (part_000 lines 38-42):
asserts `buffer->getEngine() == this`, then returns the offset view. -/
def newTensor (self : EngineObj) (buffer : BufferObj) (desc : TensorDescObj)
    (byteOffset : ℕ) : Except OidnError GenericTensor :=
  if buffer.engineId = self.id then
    .ok { buffer := buffer, desc := desc, byteOffset := byteOffset }
  else .error .precondition

/-! ## Scratch buffer manager lifecycle (part_000 lines 20-26)

Modelled from the spec: the `ScratchBufferManager` and `ScratchBuffer`
classes (scratch.h is not in src/) are shared_ptr-managed; the model tracks
each manager's strong reference count explicitly.  `newScratchBuffer` itself
follows part_000 lines 20-26: lock the weak reference, create a fresh
manager if it is expired, and hand the lease a strong handle. -/

/-- The reference-counting world of one engine: the next fresh manager id,
the strong count of each manager (a manager is alive iff its count is
positive), and the engine's weak reference `scratchManagerWp`. -/
structure ScratchWorld where
  nextId : ℕ
  strongCount : ℕ → ℕ
  wp : Option ℕ

/-- `scratchManagerWp.lock()`: yields the manager only while some strong
reference keeps it alive — the engine's weak reference itself never does. -/
def lockWeak (w : ScratchWorld) : Option ℕ :=
  match w.wp with
  | some m => if 0 < w.strongCount m then some m else none
  | none => none

/-- A `ScratchBuffer` lease: it holds a strong handle to its manager. -/
structure ScratchLease where
  manager : ℕ
  byteSize : ℕ

/-- `Engine::newScratchBuffer` (part_000 lines 20-26): lock the weak
reference; if expired, create a fresh manager and point the weak reference
at it; return a lease holding a strong handle to the manager. -/
def newScratchBuffer (w : ScratchWorld) (byteSize : ℕ) :
    ScratchLease × ScratchWorld :=
  match lockWeak w with
  | some m =>
      (⟨m, byteSize⟩,
        { w with strongCount := fun x => if x = m then w.strongCount x + 1 else w.strongCount x })
  | none =>
      (⟨w.nextId, byteSize⟩,
        { nextId := w.nextId + 1
          strongCount := fun x => if x = w.nextId then 1 else w.strongCount x
          wp := some w.nextId })

/-- Releasing a lease drops its strong handle on the manager. -/
def releaseLease (w : ScratchWorld) (lease : ScratchLease) : ScratchWorld :=
  { w with strongCount := fun x => if x = lease.manager then w.strongCount x - 1 else w.strongCount x }

/-! ## Per-unit barrier/access traces of the three kernels -/

/-- An observable event of one execution unit: a group barrier
(`syncGroup()`), or an access to a group-local shared array at an index. -/
inductive KEvent where
  | barrier
  | access (idx : ℕ)
deriving DecidableEq

/-- The `i` values taken by `for (int i = start; i > 0; i >>= 1)`,
fuel-indexed so it evaluates by reduction. -/
def halvingIters : ℕ → ℕ → List ℕ
  | 0, _ => []
  | fuel + 1, i => if i = 0 then [] else i :: halvingIters fuel (i / 2)

/-- The `i` values of the halving loop of a kernel with group size `gs`
(the loop starts at `gs / 2`). -/
def halvingSeq (gs : ℕ) : List ℕ := halvingIters gs (gs / 2)

/-- The events the unit with local id `lid` produces in the halving loop:
each iteration executes the barrier unconditionally, and only then, if
`lid < i`, reads `localSums[lid]` and `localSums[lid + i]` and writes
`localSums[lid]`. -/
def loopEvents (lid : ℕ) (iters : List ℕ) : List KEvent :=
  iters.flatMap fun i =>
    KEvent.barrier :: (if lid < i then [KEvent.access lid, KEvent.access (lid + i)] else [])

/-- Trace of one downsample-kernel unit (lines 75-95): the initial store
`localSums[localId] = L` — performed whether or not the unit's pixel was in
bounds (`inBounds` only selects the value stored) — followed by the halving
loop over group size 256. -/
def downsampleUnitEvents (_inBounds : Bool) (lid : ℕ) : List KEvent :=
  KEvent.access lid :: loopEvents lid (halvingSeq 256)

/-- Trace of one reduce-kernel unit (lines 132-144): stores its strided
accumulators at `localId`, then the halving loop over group size 1024. -/
def reduceUnitEvents (lid : ℕ) : List KEvent :=
  KEvent.access lid :: loopEvents lid (halvingSeq 1024)

/-- Trace of one finalize-kernel unit (lines 167-188): both branches of the
bounds check store at `localId` (the out-of-range branch stores the padding
value 0), then the halving loop over group size 1024. -/
def finalUnitEvents (_inRange : Bool) (lid : ℕ) : List KEvent :=
  KEvent.access lid :: loopEvents lid (halvingSeq 1024)

/-- Number of group barriers in a trace. -/
def countBarriers : List KEvent → ℕ
  | [] => 0
  | KEvent.barrier :: es => countBarriers es + 1
  | KEvent.access _ :: es => countBarriers es

/-- Every shared-array access of the trace is below the array bound. -/
def accessesBounded (gs : ℕ) (es : List KEvent) : Prop :=
  ∀ i : ℕ, KEvent.access i ∈ es → i < gs

/-! ## Lemmas about the reduction machinery -/

lemma sum_step {M : Type} [AddCommMonoid M] (a : ℕ → M) (k : ℕ) :
    ∑ j ∈ Finset.range (2 ^ k), step a (2 ^ k) j =
      ∑ j ∈ Finset.range (2 ^ (k + 1)), a j := by
  have h2 : 2 ^ (k + 1) = 2 ^ k + 2 ^ k := by ring
  have hterm : ∀ j ∈ Finset.range (2 ^ k), step a (2 ^ k) j = a j + a (j + 2 ^ k) := by
    intro j hj
    have := Finset.mem_range.mp hj
    simp [step, this]
  rw [h2, Finset.sum_range_add, Finset.sum_congr rfl hterm, Finset.sum_add_distrib]
  congr 1
  exact Finset.sum_congr rfl fun j _ => by rw [Nat.add_comm]

/-- After the full halving loop, entry 0 of the shared array holds the sum of
all `2^k` entries. -/
lemma treeLoop_zero_sum {M : Type} [AddCommMonoid M] (k : ℕ) (a : ℕ → M) :
    treeLoop k a 0 = ∑ j ∈ Finset.range (2 ^ k), a j := by
  induction k generalizing a with
  | zero => simp [treeLoop]
  | succ k ih =>
      rw [treeLoop, ih, sum_step]

/-- Splitting a sum over `range (m * n)` into `m` consecutive blocks of `n`. -/
lemma sum_range_mul {M : Type} [AddCommMonoid M] (f : ℕ → M) (m n : ℕ) :
    ∑ j ∈ Finset.range (m * n), f j =
      ∑ a ∈ Finset.range m, ∑ b ∈ Finset.range n, f (a * n + b) := by
  induction m with
  | zero => simp
  | succ m ih =>
      have : (m + 1) * n = m * n + n := by ring
      rw [this, Finset.sum_range_add, ih, Finset.sum_range_succ]

/-- Linear local id `j = lh * 16 + lw` decomposed back into 2-D coordinates:
summing a function of `(j / n, j % n)` over `range (m * n)` is summing over
the 2-D grid. -/
lemma sum_range_mul_divMod {M : Type} [AddCommMonoid M] (g : ℕ → ℕ → M) (m n : ℕ)
    (hn : 0 < n) :
    ∑ j ∈ Finset.range (m * n), g (j / n) (j % n) =
      ∑ a ∈ Finset.range m, ∑ b ∈ Finset.range n, g a b := by
  rw [sum_range_mul (fun j => g (j / n) (j % n)) m n]
  refine Finset.sum_congr rfl fun a _ => Finset.sum_congr rfl fun b hb => ?_
  have hbn : b < n := Finset.mem_range.mp hb
  have hdiv : (a * n + b) / n = a := by
    rw [Nat.add_comm, Nat.mul_comm, Nat.add_mul_div_left _ _ hn,
      Nat.div_eq_of_lt hbn, Nat.zero_add]
  have hmod : (a * n + b) % n = b := by
    rw [Nat.mul_add_mod', Nat.mod_eq_of_lt hbn]
  rw [hdiv, hmod]

lemma strideLoop_eq_filter {M : Type} [AddCommMonoid M] (f : ℕ → M)
    (size R : ℕ) (hR : 0 < R) :
    ∀ fuel i, size ≤ i + fuel * R →
      strideLoop f size R fuel i =
        ∑ j ∈ (Finset.range size).filter (fun j => i ≤ j ∧ R ∣ (j - i)), f j := by
  intro fuel
  induction fuel with
  | zero =>
      intro i hi
      rw [strideLoop]
      rw [Finset.filter_false_of_mem, Finset.sum_empty]
      intro j hj
      have := Finset.mem_range.mp hj
      simp only [Nat.zero_mul, Nat.add_zero] at hi
      omega
  | succ fuel ih =>
      intro i hi
      rw [strideLoop]
      by_cases hlt : i < size
      · simp only [hlt, if_true]
        have hfuel : size ≤ (i + R) + fuel * R := by
          have : i + (fuel + 1) * R = (i + R) + fuel * R := by ring
          omega
        rw [ih (i + R) hfuel]
        have hset : (Finset.range size).filter (fun j => i ≤ j ∧ R ∣ (j - i)) =
            insert i ((Finset.range size).filter
              (fun j => i + R ≤ j ∧ R ∣ (j - (i + R)))) := by
          ext j
          simp only [Finset.mem_filter, Finset.mem_insert, Finset.mem_range]
          constructor
          · rintro ⟨hjs, hij, hdvd⟩
            by_cases hji : j = i
            · exact Or.inl hji
            · right
              have hpos : 0 < j - i := by omega
              have hRle : R ≤ j - i := Nat.le_of_dvd hpos hdvd
              have hiR : i + R ≤ j := by omega
              have hsub : j - (i + R) = (j - i) - R := by omega
              refine ⟨hjs, hiR, ?_⟩
              rw [hsub]
              exact Nat.dvd_sub' hdvd (dvd_refl R)
          · rintro (hji | ⟨hjs, hiRj, hdvd⟩)
            · subst hji
              exact ⟨hlt, Nat.le_refl _, by simp⟩
            · refine ⟨hjs, by omega, ?_⟩
              have hsub : j - i = (j - (i + R)) + R := by omega
              rw [hsub]
              exact dvd_add hdvd (dvd_refl R)
        rw [hset, Finset.sum_insert]
        simp only [Finset.mem_filter]
        rintro ⟨-, hc, -⟩
        omega
      · simp only [hlt, if_false]
        rw [Finset.filter_false_of_mem, Finset.sum_empty]
        intro j hj
        have := Finset.mem_range.mp hj
        omega

lemma strideSum_eq_filter {M : Type} [AddCommMonoid M] (f : ℕ → M)
    (size R gid : ℕ) (hR : 0 < R) :
    strideSum f size R gid =
      ∑ j ∈ (Finset.range size).filter (fun j => gid ≤ j ∧ R ∣ (j - gid)), f j := by
  apply strideLoop_eq_filter f size R hR size gid
  exact Nat.le_trans (Nat.le_mul_of_pos_right size hR) (Nat.le_add_left _ _)

/-- The strided iterations of the `R` execution units partition the index
range: summing the per-unit accumulations over all global ids recovers the
plain sum over all indices. -/
lemma sum_strideSum {M : Type} [AddCommMonoid M] (f : ℕ → M) (size R : ℕ)
    (hR : 0 < R) :
    ∑ gid ∈ Finset.range R, strideSum f size R gid =
      ∑ j ∈ Finset.range size, f j := by
  have hcong : ∀ gid ∈ Finset.range R,
      strideSum f size R gid =
        ∑ j ∈ (Finset.range size).filter (fun j => j % R = gid), f j := by
    intro gid hgid
    have hg : gid < R := Finset.mem_range.mp hgid
    rw [strideSum_eq_filter f size R gid hR]
    congr 1
    apply Finset.filter_congr
    intro j _
    constructor
    · rintro ⟨hle, q, hq⟩
      have hj : j = gid + R * q := by omega
      subst hj
      rw [Nat.add_mul_mod_self_left]
      exact Nat.mod_eq_of_lt hg
    · intro hmod
      have h1 : gid ≤ j := hmod ▸ Nat.mod_le j R
      have h2 := Nat.div_add_mod j R
      exact ⟨h1, ⟨j / R, by omega⟩⟩
  rw [Finset.sum_congr rfl hcong]
  exact Finset.sum_fiberwise_of_maps_to
    (fun j _ => Finset.mem_range.mpr (Nat.mod_lt j hR)) f

/-! ## Tile geometry of the downsample stage -/

lemma tileLo_zero (H n : ℕ) : tileLo H n 0 = 0 := by
  simp [tileLo]

lemma tileLo_self (H n : ℕ) (hn : 0 < n) : tileLo H n n = H := by
  simp only [tileLo]
  rw [Nat.mul_comm]
  exact Nat.mul_div_cancel H hn

lemma tileLo_mono (H n : ℕ) {b b' : ℕ} (h : b ≤ b') :
    tileLo H n b ≤ tileLo H n b' :=
  Nat.div_le_div_right (Nat.mul_le_mul_right H h)

lemma tileLo_le (H n b : ℕ) (hn : 0 < n) (hb : b ≤ n) : tileLo H n b ≤ H :=
  (tileLo_mono H n hb).trans (le_of_eq (tileLo_self H n hn))

/-- A tile spans at most `16` pixels per dimension when there are
`ceil(H/16)`-many tiles: `endH - beginH ≤ 16`. -/
lemma tile_width_le (H n b : ℕ) (hn : 0 < n) (hH : H ≤ 16 * n) :
    tileLo H n (b + 1) - tileLo H n b ≤ 16 := by
  rcases Nat.lt_or_ge H (16 * n) with hlt | hge
  · have hdiv : H / n ≤ 15 := by
      have := (Nat.div_lt_iff_lt_mul hn).mpr (by omega : H < 16 * n)
      omega
    have h1 : (b + 1) * H = b * H + H := by ring
    have h2 : (b * H + H) / n = b * H / n + H / n +
        if n ≤ b * H % n + H % n then 1 else 0 := Nat.add_div hn
    simp only [tileLo, h1, h2]
    split_ifs <;> omega
  · have hEq : H = 16 * n := by omega
    subst hEq
    have hb1 : b * (16 * n) = (16 * b) * n := by ring
    have hb2 : (b + 1) * (16 * n) = (16 * (b + 1)) * n := by ring
    simp only [tileLo, hb1, hb2, Nat.mul_div_cancel _ hn]
    omega

/-- 1-D tile partition: every coordinate `h < H` lies in exactly one of the
`n` integer-division tiles. -/
lemma tile_unique (H n : ℕ) (hn : 0 < n) {h : ℕ} (hh : h < H) :
    ∃! b, b < n ∧ tileLo H n b ≤ h ∧ h < tileLo H n (b + 1) := by
  classical
  set S : Finset ℕ := (Finset.range (n + 1)).filter (fun b => tileLo H n b ≤ h) with hS
  have h0S : 0 ∈ S := by
    simp [hS, tileLo_zero]
  have hne : S.Nonempty := ⟨0, h0S⟩
  set b := S.max' hne with hb
  have hbS : b ∈ S := S.max'_mem hne
  have hbn1 : b < n + 1 := Finset.mem_range.mp (Finset.mem_filter.mp hbS).1
  have hble : tileLo H n b ≤ h := (Finset.mem_filter.mp hbS).2
  have hbn : b < n := by
    rcases Nat.lt_or_ge b n with h1 | h1
    · exact h1
    · exfalso
      have hbn2 : b = n := by omega
      rw [hbn2, tileLo_self H n hn] at hble
      omega
  have hrgt : h < tileLo H n (b + 1) := by
    by_contra hcon
    push_neg at hcon
    have : b + 1 ∈ S := by
      simp only [hS, Finset.mem_filter, Finset.mem_range]
      exact ⟨by omega, hcon⟩
    have := Finset.le_max' S (b + 1) this
    omega
  refine ⟨b, ⟨hbn, hble, hrgt⟩, ?_⟩
  rintro b' ⟨hb'n, hb'le, hb'rt⟩
  by_contra hne2
  rcases Nat.lt_or_ge b' b with hlt | hge
  · have : tileLo H n (b' + 1) ≤ tileLo H n b := tileLo_mono H n (by omega)
    omega
  · have hbb : b < b' := by omega
    have : tileLo H n (b + 1) ≤ tileLo H n b' := tileLo_mono H n (by omega)
    omega

/-! ## The downsample stage computes true per-tile means -/

/-- Turning a guarded sum over the 16-wide local range into a sum over the
tile interval. -/
lemma sum_guard_Ico {M : Type} [AddCommMonoid M] (f : ℕ → M) (a e n : ℕ)
    (he : e ≤ a + n) :
    ∑ i ∈ Finset.range n, (if a + i < e then f (a + i) else 0) =
      ∑ w ∈ Finset.Ico a e, f w := by
  rw [← Finset.sum_filter]
  have hfe : (Finset.range n).filter (fun i => a + i < e) = Finset.range (e - a) := by
    ext i
    simp only [Finset.mem_filter, Finset.mem_range]
    omega
  rw [hfe, Finset.sum_Ico_eq_sum_range]

/-- The downsample group `(bh, bw)` writes the exact mean of the sanitized
luminances over its tile (the sum over the tile divided by the tile's true
pixel count). -/
lemma binAvg_eq_tile_mean (img : ImageFun) (H W nbh nbw bh bw : ℕ)
    (hnh : 0 < nbh) (hnw : 0 < nbw) (hH : H ≤ 16 * nbh) (hW : W ≤ 16 * nbw) :
    binAvg img H W nbh nbw bh bw =
      (∑ h ∈ Finset.Ico (tileLo H nbh bh) (tileLo H nbh (bh + 1)),
        ∑ w ∈ Finset.Ico (tileLo W nbw bw) (tileLo W nbw (bw + 1)),
          sanitizedLuminance (img h w)) /
      ((tileLo H nbh (bh + 1) - tileLo H nbh bh) *
        (tileLo W nbw (bw + 1) - tileLo W nbw bw) : ℕ) := by
  have hnum : treeLoop 8 (downsampleLocal img H W nbh nbw bh bw) 0 =
      ∑ h ∈ Finset.Ico (tileLo H nbh bh) (tileLo H nbh (bh + 1)),
        ∑ w ∈ Finset.Ico (tileLo W nbw bw) (tileLo W nbw (bw + 1)),
          sanitizedLuminance (img h w) := by
    rw [treeLoop_zero_sum]
    have h256 : (2 : ℕ) ^ 8 = 16 * 16 := by norm_num
    rw [h256]
    rw [show (fun j => downsampleLocal img H W nbh nbw bh bw j) =
      (fun j => unitL img H W nbh nbw bh bw (j / 16) (j % 16)) from rfl]
    rw [sum_range_mul_divMod (fun lh lw => unitL img H W nbh nbw bh bw lh lw)
      16 16 (by norm_num)]
    have hWe : tileLo W nbw (bw + 1) ≤ tileLo W nbw bw + 16 := by
      have h1 := tile_width_le W nbw bw hnw hW
      have h2 := tileLo_mono W nbw (Nat.le_succ bw)
      omega
    have hHe : tileLo H nbh (bh + 1) ≤ tileLo H nbh bh + 16 := by
      have h1 := tile_width_le H nbh bh hnh hH
      have h2 := tileLo_mono H nbh (Nat.le_succ bh)
      omega
    have hinner : ∀ lh ∈ Finset.range 16,
        ∑ lw ∈ Finset.range 16, unitL img H W nbh nbw bh bw lh lw =
          if tileLo H nbh bh + lh < tileLo H nbh (bh + 1) then
            ∑ w ∈ Finset.Ico (tileLo W nbw bw) (tileLo W nbw (bw + 1)),
              sanitizedLuminance (img (tileLo H nbh bh + lh) w)
          else 0 := by
      intro lh _
      by_cases hA : tileLo H nbh bh + lh < tileLo H nbh (bh + 1)
      · simp only [hA, if_true]
        rw [← sum_guard_Ico (fun w => sanitizedLuminance (img (tileLo H nbh bh + lh) w))
          (tileLo W nbw bw) (tileLo W nbw (bw + 1)) 16 hWe]
        refine Finset.sum_congr rfl fun lw _ => ?_
        simp only [unitL, hA, true_and]
      · simp only [unitL, hA, false_and, if_false, Finset.sum_const_zero]
    rw [Finset.sum_congr rfl hinner]
    exact sum_guard_Ico
      (fun h => ∑ w ∈ Finset.Ico (tileLo W nbw bw) (tileLo W nbw (bw + 1)),
        sanitizedLuminance (img h w))
      (tileLo H nbh bh) (tileLo H nbh (bh + 1)) 16 hHe
  rw [binAvg, hnum]

/-! ## The reduce and finalize stages -/

/-- The per-group partial is the plain sum of its 1024 units' strided
accumulations. -/
lemma groupPartial_eq_sum (binsA : ℕ → ℝ) (size nG g : ℕ) :
    groupPartial binsA size nG g =
      ∑ l ∈ Finset.range 1024,
        strideSum (reducePair binsA) size (nG * 1024) (g * 1024 + l) := by
  rw [groupPartial, treeLoop_zero_sum]
  norm_num

/-- Stage-2 totals: summing the emitted per-group (sum, count) pairs over
all groups yields the sum of the loop-body contributions over every bin
index, each visited exactly once. -/
lemma sum_groupPartial (binsA : ℕ → ℝ) (size nG : ℕ) (hG : 0 < nG) :
    ∑ g ∈ Finset.range nG, groupPartial binsA size nG g =
      ∑ i ∈ Finset.range size, reducePair binsA i := by
  have h1 : ∀ g ∈ Finset.range nG, groupPartial binsA size nG g =
      ∑ l ∈ Finset.range 1024,
        strideSum (reducePair binsA) size (nG * 1024) (g * 1024 + l) :=
    fun g _ => groupPartial_eq_sum binsA size nG g
  rw [Finset.sum_congr rfl h1,
    ← sum_range_mul (fun gid => strideSum (reducePair binsA) size (nG * 1024) gid) nG 1024]
  exact sum_strideSum (reducePair binsA) size (nG * 1024) (by positivity)

/-- Stage-3 totals: the finalize kernel's tree reduction over the
zero-padded loads recovers the sum of the `nG` partials. -/
lemma final_total (p : ℕ → ℝ × ℤ) (nG : ℕ) (h : nG ≤ 1024) :
    treeLoop 10 (finalLocal p nG) 0 = ∑ l ∈ Finset.range nG, p l := by
  rw [treeLoop_zero_sum]
  have h1 : (2 : ℕ) ^ 10 = 1024 := by norm_num
  rw [h1]
  have hzero : ∀ x ∈ Finset.range 1024, x ∉ Finset.range nG →
      finalLocal p nG x = 0 := by
    intro x _ hx
    have : ¬ x < nG := by
      simpa [Finset.mem_range] using hx
    simp [finalLocal, this, Prod.mk_zero_zero]
  rw [← Finset.sum_subset (Finset.range_subset.mpr h) hzero]
  exact Finset.sum_congr rfl fun l hl => by
    simp [finalLocal, Finset.mem_range.mp hl]

/-! ## Uniform and all-NaN images -/

lemma luminance_const (c : ℝ) : luminance c c c = c := by
  simp only [luminance]
  ring_nf

lemma sanitizedLuminance_uniform (c : ℝ) (hc0 : 0 ≤ c) (hcM : c ≤ fltMax)
    (h w : ℕ) : sanitizedLuminance (uniformImage c h w) = c := by
  have hcl : clamp (nan_to_zero (some c)) 0 fltMax = c := by
    simp only [clamp, nan_to_zero, Option.getD_some]
    rw [max_eq_left hc0, min_eq_left hcM]
  simp only [sanitizedLuminance, uniformImage]
  rw [hcl, luminance_const]

lemma sanitizedLuminance_allNaN (h w : ℕ) :
    sanitizedLuminance (allNaNImage h w) = 0 := by
  have h0 : (0 : ℝ) ≤ fltMax := by
    simp only [fltMax]
    norm_num
  have hcl : clamp (nan_to_zero none) 0 fltMax = 0 := by
    simp only [clamp, nan_to_zero, Option.getD_none]
    rw [max_self, min_eq_left h0]
  simp only [sanitizedLuminance, allNaNImage]
  rw [hcl, luminance_const]

lemma tileLo_exact (n b : ℕ) (hn : 0 < n) : tileLo (16 * n) n b = 16 * b := by
  simp only [tileLo]
  rw [show b * (16 * n) = (16 * b) * n by ring, Nat.mul_div_cancel _ hn]

/-- On an exactly-tiled uniform image every bin receives exactly `c`. -/
lemma binAvg_uniform (c : ℝ) (hc0 : 0 ≤ c) (hcM : c ≤ fltMax)
    (nbh nbw bh bw : ℕ) (hnh : 0 < nbh) (hnw : 0 < nbw) :
    binAvg (uniformImage c) (16 * nbh) (16 * nbw) nbh nbw bh bw = c := by
  rw [binAvg_eq_tile_mean _ _ _ _ _ _ _ hnh hnw (le_refl _) (le_refl _)]
  rw [tileLo_exact nbh bh hnh, tileLo_exact nbh (bh + 1) hnh,
    tileLo_exact nbw bw hnw, tileLo_exact nbw (bw + 1) hnw]
  have hwidH : 16 * (bh + 1) - 16 * bh = 16 := by omega
  have hwidW : 16 * (bw + 1) - 16 * bw = 16 := by omega
  have hinner : ∀ h ∈ Finset.Ico (16 * bh) (16 * (bh + 1)),
      ∑ w ∈ Finset.Ico (16 * bw) (16 * (bw + 1)),
        sanitizedLuminance (uniformImage c h w) = 16 * c := by
    intro h _
    rw [Finset.sum_congr rfl (fun w _ => sanitizedLuminance_uniform c hc0 hcM h w),
      Finset.sum_const, Nat.card_Ico, hwidW]
    rw [nsmul_eq_mul]
    norm_num
  rw [Finset.sum_congr rfl hinner, Finset.sum_const, Nat.card_Ico, hwidH, hwidW,
    nsmul_eq_mul]
  push_cast
  field_simp
  ring

/-- On a uniform image with dimensions exact multiples of 16 the pipeline
returns exactly `key / c`. -/
lemma pipeline_uniform (c : ℝ) (H W : ℕ) (hH16 : H % 16 = 0)
    (hW16 : W % 16 = 0) (hH : 0 < H) (hW : 0 < W) (hc : eps < c)
    (hcM : c ≤ fltMax) :
    autoexposurePipeline (uniformImage c) H W = some (key / c) := by
  have heps : (0 : ℝ) < eps := by
    simp only [eps]
    norm_num
  have hc0 : (0 : ℝ) < c := heps.trans hc
  have hnbhH : numBinsHOf H = H / 16 := by
    simp only [numBinsHOf, ceil_div, maxBinSize]
    omega
  have hnbwW : numBinsWOf W = W / 16 := by
    simp only [numBinsWOf, ceil_div, maxBinSize]
    omega
  have hHe : H = 16 * numBinsHOf H := by
    rw [hnbhH]; omega
  have hWe : W = 16 * numBinsWOf W := by
    rw [hnbwW]; omega
  have hnh : 0 < numBinsHOf H := by
    rw [hnbhH]; omega
  have hnw : 0 < numBinsWOf W := by
    rw [hnbwW]; omega
  have hnB : 0 < numBinsOf H W := Nat.mul_pos hnh hnw
  have hnG : 0 < numGroupsOf H W := by
    simp only [numGroupsOf, ceil_div, groupSize]
    omega
  have hnGle : numGroupsOf H W ≤ 1024 := by
    simp only [numGroupsOf, groupSize]
    omega
  have hbins : ∀ b, binsArray (uniformImage c) H W (numBinsHOf H) (numBinsWOf W) b = c := by
    intro b
    have h1 : binsArray (uniformImage c) (16 * numBinsHOf H) (16 * numBinsWOf W)
        (numBinsHOf H) (numBinsWOf W) b = c := by
      rw [binsArray]
      exact binAvg_uniform c hc0.le hcM _ _ _ _ hnh hnw
    rw [← hHe, ← hWe] at h1
    exact h1
  have hpair : ∀ i, reducePair (binsArray (uniformImage c) H W (numBinsHOf H) (numBinsWOf W)) i =
      (Real.logb 2 c, 1) := by
    intro i
    rw [reducePair, hbins i, if_pos hc]
  simp only [autoexposurePipeline]
  rw [final_total _ _ hnGle, sum_groupPartial _ _ _ hnG,
    Finset.sum_congr rfl (fun i _ => hpair i), Finset.sum_const,
    Finset.card_range]
  have hsmul : (numBinsOf H W) • ((Real.logb 2 c, 1) : ℝ × ℤ) =
      ((numBinsOf H W : ℝ) * Real.logb 2 c, (numBinsOf H W : ℤ)) := by
    rw [Prod.smul_mk]
    rw [nsmul_eq_mul, nsmul_eq_mul, mul_one]
  rw [hsmul, finalResult]
  have hnBz : ((numBinsOf H W : ℤ)) ≠ 0 := by
    exact_mod_cast hnB.ne'
  rw [if_neg hnBz]
  have hnBr : ((numBinsOf H W : ℝ)) ≠ 0 := by
    exact_mod_cast hnB.ne'
  have hdiv : ((numBinsOf H W : ℝ)) * Real.logb 2 c / (((numBinsOf H W : ℤ) : ℝ)) =
      Real.logb 2 c := by
    push_cast
    exact mul_div_cancel_left₀ _ hnBr
  rw [hdiv, Real.rpow_logb (by norm_num) (by norm_num) hc0]

/-- Padding-value accumulation: a strided loop over an everywhere-zero body
accumulates zero. -/
lemma strideLoop_eq_zero {M : Type} [AddCommMonoid M] (f : ℕ → M)
    (hf : ∀ i, f i = 0) (size R : ℕ) :
    ∀ fuel i, strideLoop f size R fuel i = 0 := by
  intro fuel
  induction fuel with
  | zero => intro i; rfl
  | succ fuel ih =>
      intro i
      rw [strideLoop]
      by_cases h : i < size
      · rw [if_pos h, hf, ih, add_zero]
      · rw [if_neg h]

/-- On the all-NaN image every bin sanitizes to 0, every bin is excluded by
the epsilon filter, `totalCount` is 0, and the result is the NaN marker. -/
lemma pipeline_allNaN (H W : ℕ) : autoexposurePipeline allNaNImage H W = none := by
  have heps : (0 : ℝ) < eps := by
    simp only [eps]
    norm_num
  have hbins : ∀ b, binsArray allNaNImage H W (numBinsHOf H) (numBinsWOf W) b = 0 := by
    intro b
    rw [binsArray, binAvg]
    have hloc : ∀ j, downsampleLocal allNaNImage H W (numBinsHOf H) (numBinsWOf W)
        (b / numBinsWOf W) (b % numBinsWOf W) j = 0 := by
      intro j
      rw [downsampleLocal, unitL]
      split
      · exact sanitizedLuminance_allNaN _ _
      · rfl
    rw [treeLoop_zero_sum, Finset.sum_congr rfl (fun j _ => hloc j),
      Finset.sum_const_zero, zero_div]
  have hpair : ∀ i, reducePair (binsArray allNaNImage H W (numBinsHOf H) (numBinsWOf W)) i =
      0 := by
    intro i
    rw [reducePair, hbins i, if_neg (not_lt.mpr heps.le)]
    exact Prod.mk_zero_zero
  simp only [autoexposurePipeline]
  have hgp : ∀ g, groupPartial (binsArray allNaNImage H W (numBinsHOf H) (numBinsWOf W))
      (numBinsOf H W) (numGroupsOf H W) g = 0 := by
    intro g
    rw [groupPartial_eq_sum]
    have hz : ∀ l ∈ Finset.range 1024,
        strideSum (reducePair (binsArray allNaNImage H W (numBinsHOf H) (numBinsWOf W)))
          (numBinsOf H W) (numGroupsOf H W * 1024) (g * 1024 + l) = 0 :=
      fun l _ => strideLoop_eq_zero _ hpair _ _ _ _
    rw [Finset.sum_congr rfl hz, Finset.sum_const_zero]
  have hfl : ∀ l, finalLocal (groupPartial (binsArray allNaNImage H W (numBinsHOf H) (numBinsWOf W))
      (numBinsOf H W) (numGroupsOf H W)) (numGroupsOf H W) l = 0 := by
    intro l
    rw [finalLocal]
    split
    · exact hgp l
    · exact Prod.mk_zero_zero
  rw [treeLoop_zero_sum, Finset.sum_congr rfl (fun l _ => hfl l),
    Finset.sum_const_zero]
  simp [finalResult]

/-! ## Per-bin means and the tile partition -/

lemma numBinsHOf_pos {H : ℕ} (hH : 0 < H) : 0 < numBinsHOf H := by
  simp only [numBinsHOf, ceil_div, maxBinSize]
  omega

lemma numBinsWOf_pos {W : ℕ} (hW : 0 < W) : 0 < numBinsWOf W := by
  simp only [numBinsWOf, ceil_div, maxBinSize]
  omega

lemma le_16_numBinsHOf (H : ℕ) : H ≤ 16 * numBinsHOf H := by
  simp only [numBinsHOf, ceil_div, maxBinSize]
  omega

lemma le_16_numBinsWOf (W : ℕ) : W ≤ 16 * numBinsWOf W := by
  simp only [numBinsWOf, ceil_div, maxBinSize]
  omega

/-- Every entry of the bins array is the true mean over its tile: the tile
sum divided by the tile's actual pixel count. -/
lemma binsArray_eq_tile_mean (H W : ℕ) (img : ImageFun) (hH : 0 < H)
    (hW : 0 < W) (b : ℕ) :
    binsArray img H W (numBinsHOf H) (numBinsWOf W) b =
      (∑ p ∈ binTile H W b, sanitizedLuminance (img p.1 p.2)) /
        ((binTile H W b).card) := by
  rw [binsArray, binAvg_eq_tile_mean img H W _ _ _ _ (numBinsHOf_pos hH)
    (numBinsWOf_pos hW) (le_16_numBinsHOf H) (le_16_numBinsWOf W)]
  rw [binTile, Finset.card_product, Nat.card_Ico, Nat.card_Ico,
    Finset.sum_product]

/-- The tiles partition the image: every in-bounds pixel lies in the tile of
exactly one bin. -/
lemma bin_partition (H W : ℕ) (hH : 0 < H) (hW : 0 < W) {h w : ℕ}
    (hh : h < H) (hw : w < W) :
    ∃! b, b < numBinsOf H W ∧ (h, w) ∈ binTile H W b := by
  have hnh := numBinsHOf_pos hH
  have hnw := numBinsWOf_pos hW
  obtain ⟨bh, ⟨hbh, hbhle, hbhlt⟩, hbhu⟩ := tile_unique H (numBinsHOf H) hnh hh
  obtain ⟨bw, ⟨hbw, hbwle, hbwlt⟩, hbwu⟩ := tile_unique W (numBinsWOf W) hnw hw
  have hdiv : (bh * numBinsWOf W + bw) / numBinsWOf W = bh := by
    rw [Nat.add_comm, Nat.mul_comm, Nat.add_mul_div_left _ _ hnw,
      Nat.div_eq_of_lt hbw, Nat.zero_add]
  have hmod : (bh * numBinsWOf W + bw) % numBinsWOf W = bw := by
    rw [Nat.mul_add_mod', Nat.mod_eq_of_lt hbw]
  have hlt : bh * numBinsWOf W + bw < numBinsOf H W := by
    have h1 : (bh + 1) * numBinsWOf W ≤ numBinsHOf H * numBinsWOf W :=
      Nat.mul_le_mul_right _ (by omega)
    have h2 : (bh + 1) * numBinsWOf W = bh * numBinsWOf W + numBinsWOf W := by
      ring
    simp only [numBinsOf]
    omega
  refine ⟨bh * numBinsWOf W + bw, ⟨hlt, ?_⟩, ?_⟩
  · simp only [binTile, hdiv, hmod, Finset.mem_product, Finset.mem_Ico]
    exact ⟨⟨hbhle, hbhlt⟩, ⟨hbwle, hbwlt⟩⟩
  · rintro b2 ⟨hb2, hmem⟩
    simp only [binTile, Finset.mem_product, Finset.mem_Ico] at hmem
    have hb2w : b2 % numBinsWOf W < numBinsWOf W := Nat.mod_lt _ hnw
    have hb2h : b2 / numBinsWOf W < numBinsHOf H := by
      rw [Nat.div_lt_iff_lt_mul hnw]
      simpa [numBinsOf, Nat.mul_comm] using hb2
    have heqh : b2 / numBinsWOf W = bh :=
      hbhu _ ⟨hb2h, hmem.1.1, hmem.1.2⟩
    have heqw : b2 % numBinsWOf W = bw :=
      hbwu _ ⟨hb2w, hmem.2.1, hmem.2.2⟩
    have hdm := Nat.div_add_mod b2 (numBinsWOf W)
    have : numBinsWOf W * (b2 / numBinsWOf W) = bh * numBinsWOf W := by
      rw [heqh]; ring
    omega

/-! ## Sums of singleton multisets (each index visited exactly once) -/

lemma sum_singleton_multiset (n : ℕ) :
    ∑ j ∈ Finset.range n, ({j} : Multiset ℕ) = Multiset.range n := by
  induction n with
  | zero => simp
  | succ n ih =>
      rw [Finset.sum_range_succ, ih, Multiset.range_succ, add_comm,
        Multiset.singleton_add]

/-! ## Barrier and access traces -/

lemma countBarriers_append (l1 l2 : List KEvent) :
    countBarriers (l1 ++ l2) = countBarriers l1 + countBarriers l2 := by
  induction l1 with
  | nil => simp [countBarriers]
  | cons e es ih =>
      cases e with
      | barrier => simp [countBarriers, ih]; omega
      | access idx => simp [countBarriers, ih]

/-- Each iteration of the halving loop contributes exactly one barrier to a
unit's trace, whether or not the unit's index passes the `localId < i`
check. -/
lemma countBarriers_loopEvents (lid : ℕ) (iters : List ℕ) :
    countBarriers (loopEvents lid iters) = iters.length := by
  induction iters with
  | nil => rfl
  | cons i is ih =>
      rw [loopEvents, List.flatMap_cons, countBarriers_append]
      have h0 : countBarriers
          (if lid < i then [KEvent.access lid, KEvent.access (lid + i)] else []) = 0 := by
        split <;> rfl
      rw [show (is.flatMap fun i => KEvent.barrier ::
        (if lid < i then [KEvent.access lid, KEvent.access (lid + i)] else [])) =
        loopEvents lid is from rfl, ih]
      simp only [countBarriers, h0, List.length_cons]
      omega

/-- Accesses inside the halving loop: each comes from an iteration `i` with
`lid < i`, at index `lid` or `lid + i`. -/
lemma access_mem_loopEvents {lid idx : ℕ} {iters : List ℕ}
    (h : KEvent.access idx ∈ loopEvents lid iters) :
    ∃ i ∈ iters, lid < i ∧ (idx = lid ∨ idx = lid + i) := by
  induction iters with
  | nil => simp [loopEvents] at h
  | cons i is ih =>
      rw [loopEvents, List.flatMap_cons] at h
      rcases List.mem_append.mp h with h1 | h2
      · rcases List.mem_cons.mp h1 with h3 | h4
        · exact absurd h3 (by simp)
        · by_cases hlt : lid < i
          · rw [if_pos hlt] at h4
            have : idx = lid ∨ idx = lid + i := by
              rcases List.mem_cons.mp h4 with h5 | h6
              · left; injection h5
              · rcases List.mem_cons.mp h6 with h7 | h8
                · right; injection h7
                · simp at h8
            exact ⟨i, List.mem_cons_self i is, hlt, this⟩
          · rw [if_neg hlt] at h4
            simp at h4
      · obtain ⟨i2, hmem, hrest⟩ := ih h2
        exact ⟨i2, List.mem_cons_of_mem i hmem, hrest⟩

/-- Shared trace facts: every unit of a `gs`-sized group executes one
barrier per halving iteration regardless of its id, and all shared-array
accesses stay below `gs`. -/
lemma unitEvents_spec (gs lid : ℕ) (hlid : lid < gs)
    (hbound : ∀ i ∈ halvingSeq gs, 2 * i ≤ gs) :
    countBarriers (KEvent.access lid :: loopEvents lid (halvingSeq gs)) =
        (halvingSeq gs).length ∧
      accessesBounded gs (KEvent.access lid :: loopEvents lid (halvingSeq gs)) := by
  constructor
  · show countBarriers (loopEvents lid (halvingSeq gs)) = _
    exact countBarriers_loopEvents lid (halvingSeq gs)
  · intro idx hmem
    rcases List.mem_cons.mp hmem with h1 | h2
    · have : idx = lid := by injection h1
      omega
    · obtain ⟨i, hi, hlt, hcase⟩ := access_mem_loopEvents h2
      have hb := hbound i hi
      rcases hcase with h3 | h3 <;> omega

/-! # Claims -/

/-- C1: for every uniform-color image `(c, c, c)` with `c` above the
epsilon `1e-8` (and float-representable, `c ≤ FLT_MAX`) whose height and
width are positive exact multiples of 16, the scalar computed by `run()`
and exposed via `getResult()` equals `key / c = 0.18 / c` (exactly, in the
ideal-real model of float arithmetic). -/
theorem uniform_color_multiplier (H W : ℕ) (c : ℝ) (hH16 : H % 16 = 0)
    (hW16 : W % 16 = 0) (hH : 0 < H) (hW : 0 < W) (hc : eps < c)
    (hcM : c ≤ fltMax) :
    autoexposurePipeline (uniformImage c) H W = some (key / c) :=
  pipeline_uniform c H W hH16 hW16 hH hW hc hcM

/-- C1 witness: a 32×32 image of color `(0.18, 0.18, 0.18)` yields
multiplier 1 and one of color `(0.72, 0.72, 0.72)` yields 0.25. -/
theorem uniform_color_multiplier_witness :
    autoexposurePipeline (uniformImage 0.18) 32 32 = some 1 ∧
      autoexposurePipeline (uniformImage 0.72) 32 32 = some 0.25 := by
  constructor
  · have h := uniform_color_multiplier 32 32 0.18 (by norm_num) (by norm_num)
      (by norm_num) (by norm_num) (by rw [eps]; norm_num) (by rw [fltMax]; norm_num)
    rw [h, key]
    norm_num
  · have h := uniform_color_multiplier 32 32 0.72 (by norm_num) (by norm_num)
      (by norm_num) (by norm_num) (by rw [eps]; norm_num) (by rw [fltMax]; norm_num)
    rw [h, key]
    norm_num

/-- C2 counterexample: on a 16×16 all-NaN image the result of `run()` is the
NaN marker (`none`), not a documented non-NaN value — the claim as stated
fails on the code. -/
theorem allNaN_counterexample :
    autoexposurePipeline allNaNImage 16 16 = none ∧
      ∀ r : ℝ, autoexposurePipeline allNaNImage 16 16 ≠ some r := by
  have h := pipeline_allNaN 16 16
  refine ⟨h, fun r hc => ?_⟩
  rw [h] at hc
  exact Option.noConfusion hc

/-- C2 (amended): for an all-NaN image every sanitized bin average is 0, so
every bin is excluded, `totalCount` is 0, and `run()` produces the undefined
division-by-zero result — NaN, modelled `none` — for every image size. -/
theorem allNaN_result_undefined (H W : ℕ) :
    autoexposurePipeline allNaNImage H W = none :=
  pipeline_allNaN H W

/-- C3: every entry of the numBins-length bins array equals the sum of the
sanitized luminances of exactly its tile's pixels divided by the tile's
actual pixel count, and the tiles partition the image — every in-bounds
pixel lies in exactly one bin's tile. -/
theorem bins_true_tile_means (H W : ℕ) (img : ImageFun) (hH : 0 < H)
    (hW : 0 < W) :
    (∀ b, b < numBinsOf H W →
      binsArray img H W (numBinsHOf H) (numBinsWOf W) b =
        (∑ p ∈ binTile H W b, sanitizedLuminance (img p.1 p.2)) /
          ((binTile H W b).card)) ∧
    (∀ h w, h < H → w < W →
      ∃! b, b < numBinsOf H W ∧ (h, w) ∈ binTile H W b) :=
  ⟨fun b _ => binsArray_eq_tile_mean H W img hH hW b,
   fun _ _ hh hw => bin_partition H W hH hW hh hw⟩

/-- C3 witness at a 20×20 image (not a multiple of 16). -/
theorem bins_true_tile_means_witness :
    binsArray allNaNImage 20 20 (numBinsHOf 20) (numBinsWOf 20) 0 =
        (∑ p ∈ binTile 20 20 0, sanitizedLuminance (allNaNImage p.1 p.2)) /
          ((binTile 20 20 0).card) ∧
      (∃! b, b < numBinsOf 20 20 ∧ ((0 : ℕ), (0 : ℕ)) ∈ binTile 20 20 b) :=
  ⟨(bins_true_tile_means 20 20 allNaNImage (by norm_num) (by norm_num)).1 0
      (by decide),
   (bins_true_tile_means 20 20 allNaNImage (by norm_num) (by norm_num)).2 0 0
      (by norm_num) (by norm_num)⟩

/-- C4: over all groups of the partial-reduce stage, the emitted partial
sums add up to the sum of `log2 L` over exactly the bins with `L > eps`, the
partial counts add up to the number of such bins, and the strided loops of
the `numGroups*1024` units visit each bin index exactly once (their visit
multisets sum to exactly one copy of each index below `size`). -/
theorem reduce_stage_totals (binsA : ℕ → ℝ) (size nG : ℕ) (hG : 0 < nG) :
    (∑ g ∈ Finset.range nG, (groupPartial binsA size nG g).1 =
      ∑ i ∈ (Finset.range size).filter (fun i => eps < binsA i),
        Real.logb 2 (binsA i)) ∧
    (∑ g ∈ Finset.range nG, (groupPartial binsA size nG g).2 =
      (((Finset.range size).filter (fun i => eps < binsA i)).card : ℤ)) ∧
    (∑ gid ∈ Finset.range (nG * 1024),
      strideSum (fun i => ({i} : Multiset ℕ)) size (nG * 1024) gid =
        Multiset.range size) := by
  have htot := sum_groupPartial binsA size nG hG
  refine ⟨?_, ?_, ?_⟩
  · have h1 := map_sum (AddMonoidHom.fst ℝ ℤ)
      (fun g => groupPartial binsA size nG g) (Finset.range nG)
    simp only [AddMonoidHom.coe_fst] at h1
    rw [← h1, htot]
    have h2 := map_sum (AddMonoidHom.fst ℝ ℤ)
      (fun i => reducePair binsA i) (Finset.range size)
    simp only [AddMonoidHom.coe_fst] at h2
    rw [h2, Finset.sum_filter]
    refine Finset.sum_congr rfl fun i _ => ?_
    rw [reducePair]
    split <;> rfl
  · have h1 := map_sum (AddMonoidHom.snd ℝ ℤ)
      (fun g => groupPartial binsA size nG g) (Finset.range nG)
    simp only [AddMonoidHom.coe_snd] at h1
    rw [← h1, htot]
    have h2 := map_sum (AddMonoidHom.snd ℝ ℤ)
      (fun i => reducePair binsA i) (Finset.range size)
    simp only [AddMonoidHom.coe_snd] at h2
    rw [h2]
    have h3 : ∀ i ∈ Finset.range size, (reducePair binsA i).2 =
        if eps < binsA i then (1 : ℤ) else 0 := by
      intro i _
      rw [reducePair]
      split <;> rfl
    rw [Finset.sum_congr rfl h3, Finset.sum_boole]
  · rw [sum_strideSum _ _ _ (Nat.mul_pos hG (by norm_num))]
    exact sum_singleton_multiset size

/-- C4 witness at `size = 1`, `nG = 1`, a single zero bin (excluded by the
epsilon filter). -/
theorem reduce_stage_totals_witness :
    (0 : ℕ) < 1 ∧
      ∑ g ∈ Finset.range 1, (groupPartial (fun _ => (0 : ℝ)) 1 1 g).2 =
        ((((Finset.range 1).filter (fun i => eps < (fun _ => (0 : ℝ)) i)).card : ℤ)) :=
  ⟨Nat.one_pos, (reduce_stage_totals (fun _ => 0) 1 1 Nat.one_pos).2.1⟩

/-- C5: `getScratchByteSize()` returns exactly
`numBins*sizeof(float) + numGroups*(sizeof(float)+sizeof(int))` with
`numBins = ceil(H/16)*ceil(W/16)` and
`numGroups = min(ceil(numBins/1024), 1024)`, computed at construction and
unchanged by `setSrc`, `setScratch` and `run`. -/
theorem scratch_size_formula :
    (∀ desc : ImageDesc, getScratchByteSize (mkGPUAutoexposure desc) =
      ceil_div desc.H 16 * ceil_div desc.W 16 * 4 +
        min (ceil_div (ceil_div desc.H 16 * ceil_div desc.W 16) 1024) 1024 *
          (4 + 4)) ∧
    (∀ op img opA, setSrc op img = .ok opA →
      getScratchByteSize opA = getScratchByteSize op) ∧
    (∀ op t opA, setScratch op t = .ok opA →
      getScratchByteSize opA = getScratchByteSize op) ∧
    (∀ op opA, runOp op = .ok opA →
      getScratchByteSize opA = getScratchByteSize op) := by
  refine ⟨fun desc => rfl, ?_, ?_, ?_⟩
  · intro op img opA h
    rw [setSrc] at h
    split at h
    · cases h
      rfl
    · exact Except.noConfusion h
  · intro op t opA h
    rw [setScratch] at h
    split at h
    · cases h
      rfl
    · exact Except.noConfusion h
  · intro op opA h
    rw [runOp] at h
    split at h
    · exact Except.noConfusion h
    · split at h
      · exact Except.noConfusion h
      · cases h
        rfl

/-- C5 witness: a 32×32 descriptor gives 4 bins, 1 group, 24 bytes, and
`setSrc` leaves the size unchanged. -/
theorem scratch_size_formula_witness :
    getScratchByteSize (mkGPUAutoexposure ⟨32, 32⟩) = 24 ∧
      getScratchByteSize
          { mkGPUAutoexposure ⟨32, 32⟩ with
              src := some ⟨32, 32, DataType.Float32, allNaNImage⟩ } =
        getScratchByteSize (mkGPUAutoexposure ⟨32, 32⟩) :=
  ⟨(scratch_size_formula.1 ⟨32, 32⟩).trans (by decide),
   scratch_size_formula.2.1 (mkGPUAutoexposure ⟨32, 32⟩)
     ⟨32, 32, DataType.Float32, allNaNImage⟩ _ rfl⟩

/-- C6: binding inputs that violate the preconditions is a
PreconditionError (and binds nothing), and conforming inputs are bound:
`setSrc` requires the image dimensions to equal the construction
descriptor, `setScratch` requires the tensor byte size to reach the
required scratch size. -/
theorem bind_precondition_checks :
    (∀ op img, img.W ≠ op.srcDesc.W ∨ img.H ≠ op.srcDesc.H →
      setSrc op img = .error .precondition) ∧
    (∀ op img, img.W = op.srcDesc.W → img.H = op.srcDesc.H →
      setSrc op img = .ok { op with src := some img }) ∧
    (∀ op t, t.byteSize < op.scratchSize →
      setScratch op t = .error .precondition) ∧
    (∀ op t, op.scratchSize ≤ t.byteSize →
      setScratch op t = .ok { op with scratch := some t }) := by
  refine ⟨?_, ?_, ?_, ?_⟩
  · intro op img h
    rw [setSrc, if_neg]
    tauto
  · intro op img h1 h2
    rw [setSrc, if_pos ⟨h1, h2⟩]
  · intro op t h
    rw [setScratch, if_neg (by omega)]
  · intro op t h
    rw [setScratch, if_pos h]

/-- C6 witness: a width-31 image on a 32×32 descriptor fails; a 24-byte
scratch tensor (exactly the required size) binds. -/
theorem bind_precondition_checks_witness :
    setSrc (mkGPUAutoexposure ⟨32, 32⟩) ⟨32, 31, DataType.Float32, allNaNImage⟩ =
        .error .precondition ∧
      setScratch (mkGPUAutoexposure ⟨32, 32⟩) ⟨24⟩ =
        .ok { mkGPUAutoexposure ⟨32, 32⟩ with scratch := some ⟨24⟩ } :=
  ⟨bind_precondition_checks.1 (mkGPUAutoexposure ⟨32, 32⟩)
      ⟨32, 31, DataType.Float32, allNaNImage⟩ (by left; decide),
   bind_precondition_checks.2.2.2 (mkGPUAutoexposure ⟨32, 32⟩) ⟨24⟩ (by decide)⟩

/-- C7: `run()` dispatches on the source element type over a closed set:
Float32 runs the `float` kernel path, Float16 the `half` kernel path, and
every other element type is a fatal UnsupportedTypeError, which `run()`
propagates. -/
theorem run_dispatch_closed :
    dispatchKernel DataType.Float32 = .ok KernelPrec.float ∧
    dispatchKernel DataType.Float16 = .ok KernelPrec.half ∧
    (∀ t : DataType, t ≠ DataType.Float32 → t ≠ DataType.Float16 →
      dispatchKernel t = .error .unsupportedType) ∧
    (∀ op img e, op.src = some img → dispatchKernel img.dtype = .error e →
      runOp op = .error e) := by
  refine ⟨rfl, rfl, ?_, ?_⟩
  · intro t h1 h2
    cases t
    · exact absurd rfl h1
    · exact absurd rfl h2
    · rfl
    · rfl
  · intro op img e hsrc hdisp
    simp only [runOp, hsrc, hdisp]

/-- C7 witness: a UInt8 source is rejected by the dispatch and by `run()`. -/
theorem run_dispatch_closed_witness :
    dispatchKernel DataType.UInt8 = .error .unsupportedType ∧
      runOp { mkGPUAutoexposure ⟨16, 16⟩ with
          src := some ⟨16, 16, DataType.UInt8, allNaNImage⟩ } =
        .error .unsupportedType :=
  ⟨run_dispatch_closed.2.2.1 DataType.UInt8 (by decide) (by decide),
   run_dispatch_closed.2.2.2 _ ⟨16, 16, DataType.UInt8, allNaNImage⟩
     .unsupportedType rfl
     (run_dispatch_closed.2.2.1 DataType.UInt8 (by decide) (by decide))⟩

/-- C8: `Engine::newTensor` in the buffer-offset form requires the buffer's
owning engine to equal the engine the call is made on: a foreign buffer is
a PreconditionError, a matching one yields the offset tensor view. -/
theorem newTensor_engine_check :
    (∀ (e : EngineObj) (b : BufferObj) (d : TensorDescObj) (o : ℕ),
      b.engineId ≠ e.id → newTensor e b d o = .error .precondition) ∧
    (∀ (e : EngineObj) (b : BufferObj) (d : TensorDescObj) (o : ℕ),
      b.engineId = e.id → newTensor e b d o = .ok ⟨b, d, o⟩) := by
  refine ⟨?_, ?_⟩
  · intro e b d o h
    rw [newTensor, if_neg h]
  · intro e b d o h
    rw [newTensor, if_pos h]

/-- C8 witness: engine 0 rejects a buffer owned by engine 1 and accepts its
own buffer. -/
theorem newTensor_engine_check_witness :
    newTensor ⟨0⟩ ⟨1, 64⟩ ⟨16⟩ 0 = .error .precondition ∧
      newTensor ⟨0⟩ ⟨0, 64⟩ ⟨16⟩ 8 = .ok ⟨⟨0, 64⟩, ⟨16⟩, 8⟩ :=
  ⟨newTensor_engine_check.1 ⟨0⟩ ⟨1, 64⟩ ⟨16⟩ 0 (by decide),
   newTensor_engine_check.2 ⟨0⟩ ⟨0, 64⟩ ⟨16⟩ 8 (by decide)⟩

/-- C9: the engine holds its Scratch Buffer Manager only weakly: while a
lease keeps the manager alive a new request reuses it and takes another
strong handle; when the weak reference is expired (first request, or all
leases released) a fresh manager is created and the weak reference is
repointed; in particular a request issued after the last lease was released
yields a manager distinct from the old one. -/
theorem scratch_manager_lifecycle :
    (∀ (w : ScratchWorld) (m sz : ℕ), w.wp = some m → 0 < w.strongCount m →
      (newScratchBuffer w sz).1.manager = m ∧
        (newScratchBuffer w sz).2.strongCount m = w.strongCount m + 1 ∧
        (newScratchBuffer w sz).2.wp = some m) ∧
    (∀ (w : ScratchWorld) (sz : ℕ), lockWeak w = none →
      (newScratchBuffer w sz).1.manager = w.nextId ∧
        (newScratchBuffer w sz).2.strongCount w.nextId = 1 ∧
        (newScratchBuffer w sz).2.wp = some w.nextId) ∧
    (∀ (w : ScratchWorld) (m sz sz2 : ℕ), w.wp = some m →
      w.strongCount m = 1 → m < w.nextId →
      (newScratchBuffer (releaseLease w ⟨m, sz⟩) sz2).1.manager =
          (releaseLease w ⟨m, sz⟩).nextId ∧
        (newScratchBuffer (releaseLease w ⟨m, sz⟩) sz2).1.manager ≠ m) := by
  refine ⟨?_, ?_, ?_⟩
  · intro w m sz hwp hpos
    have hlock : lockWeak w = some m := by
      rw [lockWeak, hwp]
      exact if_pos hpos
    rw [newScratchBuffer, hlock]
    refine ⟨rfl, ?_, hwp⟩
    show (if m = m then w.strongCount m + 1 else w.strongCount m) =
      w.strongCount m + 1
    rw [if_pos rfl]
  · intro w sz hlock
    rw [newScratchBuffer, hlock]
    refine ⟨rfl, ?_, rfl⟩
    show (if w.nextId = w.nextId then 1 else w.strongCount w.nextId) = 1
    rw [if_pos rfl]
  · intro w m sz sz2 hwp hone hm
    have hwp2 : (releaseLease w ⟨m, sz⟩).wp = some m := hwp
    have hcount : (releaseLease w ⟨m, sz⟩).strongCount m = 0 := by
      show (if m = m then w.strongCount m - 1 else w.strongCount m) = 0
      rw [if_pos rfl, hone]
    have hlock : lockWeak (releaseLease w ⟨m, sz⟩) = none := by
      rw [lockWeak, hwp2]
      show (if 0 < (releaseLease w ⟨m, sz⟩).strongCount m then some m
        else none) = none
      rw [hcount]
      simp
    rw [newScratchBuffer, hlock]
    refine ⟨rfl, ?_⟩
    show w.nextId ≠ m
    omega

/-- C9 witness: a world with one manager (id 0, one lease) reuses it while
the lease lives and mints manager 1 once the lease is released. -/
theorem scratch_manager_lifecycle_witness :
    (newScratchBuffer ⟨1, fun x => if x = 0 then 1 else 0, some 0⟩ 8).1.manager = 0 ∧
      (newScratchBuffer
          (releaseLease ⟨1, fun x => if x = 0 then 1 else 0, some 0⟩ ⟨0, 8⟩)
          8).1.manager ≠ 0 :=
  ⟨(scratch_manager_lifecycle.1 ⟨1, fun x => if x = 0 then 1 else 0, some 0⟩
      0 8 rfl (by norm_num)).1,
   (scratch_manager_lifecycle.2.2 ⟨1, fun x => if x = 0 then 1 else 0, some 0⟩
      0 8 8 rfl (by norm_num) (by norm_num)).2⟩

/-- C10: in each kernel every unit of a group executes exactly the same
number of barriers — 8 for the 256-unit downsample group, 10 for the
1024-unit reduce and finalize groups — regardless of whether its pixel or
index is in bounds, and every group-local shared-array access is within the
array bound. -/
theorem kernel_barrier_uniformity :
    (∀ (inB : Bool) (lid : ℕ), lid < 256 →
      countBarriers (downsampleUnitEvents inB lid) = 8 ∧
        accessesBounded 256 (downsampleUnitEvents inB lid)) ∧
    (∀ lid : ℕ, lid < 1024 →
      countBarriers (reduceUnitEvents lid) = 10 ∧
        accessesBounded 1024 (reduceUnitEvents lid)) ∧
    (∀ (inR : Bool) (lid : ℕ), lid < 1024 →
      countBarriers (finalUnitEvents inR lid) = 10 ∧
        accessesBounded 1024 (finalUnitEvents inR lid)) := by
  refine ⟨?_, ?_, ?_⟩
  · intro inB lid hlid
    have h := unitEvents_spec 256 lid hlid (by decide)
    exact ⟨h.1.trans (by decide), h.2⟩
  · intro lid hlid
    have h := unitEvents_spec 1024 lid hlid (by decide)
    exact ⟨h.1.trans (by decide), h.2⟩
  · intro inR lid hlid
    have h := unitEvents_spec 1024 lid hlid (by decide)
    exact ⟨h.1.trans (by decide), h.2⟩

/-- C10 witness at unit 0 of each kernel. -/
theorem kernel_barrier_uniformity_witness :
    (countBarriers (downsampleUnitEvents true 0) = 8 ∧
        accessesBounded 256 (downsampleUnitEvents true 0)) ∧
      (countBarriers (reduceUnitEvents 0) = 10 ∧
        accessesBounded 1024 (reduceUnitEvents 0)) ∧
      (countBarriers (finalUnitEvents false 0) = 10 ∧
        accessesBounded 1024 (finalUnitEvents false 0)) :=
  ⟨kernel_barrier_uniformity.1 true 0 (by decide),
   kernel_barrier_uniformity.2.1 0 (by decide),
   kernel_barrier_uniformity.2.2 false 0 (by decide)⟩

end Oidn
